import Mathlib

/-!
# Verification of the dice-game simulation (`src/dice_game.py`)

Shallow embedding of the simulation core of `dice_game.py`: the `DiceGame`
class (constructor validation, `play_round`, `simulate`), the statistical
aggregation helpers used by `simulate` and `_print_summary`, and the
replication loop of `main`.

Modelling conventions:
* Python `int` is `ℤ`; Python `float` statistics are idealised as `ℚ`
  (and `ℝ` where a square root is involved).
* `random.Random(seed).randint(low, high)` is modelled by an abstract raw
  integer stream `stream : ℕ → ℤ` together with
  `randint stream pos low high = low + stream pos % (high - low + 1)`,
  which is deterministic in the seed/stream, advances one position per
  draw, and always lands in `[low, high]` (for `low ≤ high`) — exactly
  the contract of `randint`.  Seeding (`random.Random(seed)`) is modelled
  by a stream family `gen : ℤ → ℕ → ℤ`; quantifying over `gen` covers
  every deterministic PRNG, the Mersenne Twister included, and
  quantifying over `stream` covers every realisable roll sequence.
* Python exceptions (`ValueError`) are modelled with `Except String`.
* The mutable `self.buffers` list is passed and returned explicitly;
  `play_round` returns the `RoundOutcome` together with the updated game.
-/

namespace DiceSim

/-- `StageOutcome` dataclass of `dice_game.py` (lines 22-30). -/
structure StageOutcome where
  stage : ℕ
  roll : ℤ
  available : ℤ
  processed : ℤ
  buffer_after : ℤ
  starved : Bool
  blocked : Bool
deriving DecidableEq, Repr, Inhabited

/-- `RoundOutcome` dataclass of `dice_game.py` (lines 33-38). -/
structure RoundOutcome where
  round_index : ℕ
  throughput : ℤ
  wip : ℤ
  stage_outcomes : List StageOutcome
deriving DecidableEq, Repr, Inhabited

/-- `SimulationSummary` dataclass (lines 41-49).  The float field
`throughput_stdev` of the Python dataclass is represented by the
function `SimulationSummary.throughput_stdev` further below (its value
is the square root of `throughput_pvariance`); the square root is kept
out of the structure so the whole simulation stays computable
(`Real.sqrt` is noncomputable in Lean). -/
structure SimulationSummary where
  rounds : List RoundOutcome
  avg_throughput : ℚ
  throughput_pvariance : ℚ
  avg_wip : ℚ
  total_throughput : ℤ
  stage_starved_ratio : List ℚ
  stage_blocked_ratio : List ℚ
deriving DecidableEq, Repr, Inhabited

/-- State of one `DiceGame` instance (lines 52-76): configuration,
the mutable buffer list, and the PRNG state (`stream` is the raw
deterministic stream of the seeded `random.Random`, `pos` how many
draws were already consumed). -/
structure DiceGame where
  stages : ℕ
  die_sides : ℤ
  release_rate : ℤ
  buffers : List ℤ
  stream : ℕ → ℤ
  pos : ℕ

/-- `rng.randint(low, high)`: the draw at position `pos` of the raw
stream, folded into `[low, high]`.  For `low ≤ high` the result is
always in `[low, high]`, and every sequence of in-range values is
realised by some stream. -/
def randint (stream : ℕ → ℤ) (pos : ℕ) (low high : ℤ) : ℤ :=
  low + stream pos % (high - low + 1)

/-- `self.buffers[0] += self.release_rate` (line 81): add `r` to the
head of the buffer list (the list is nonempty for every constructed
game, since `stages >= 1` is validated). -/
def bumpHead (r : ℤ) : List ℤ → List ℤ
  | [] => []
  | b :: rest => (b + r) :: rest

/-- Result of the stage loop of `play_round` (lines 85-106): the new
buffer contents, the accumulated `stage_outcomes`, the advanced PRNG
position, and the final `incoming` value. -/
structure StagesResult where
  bufs : List ℤ
  outs : List StageOutcome
  pos : ℕ
  incoming : ℤ
deriving Inhabited

/-- The `for index in range(self.stages)` loop of `play_round`
(lines 85-106), as a structural recursion over the buffer list
(`self.stages` always equals `len(self.buffers)`): one draw per stage,
in stage order. -/
def runStages (stream : ℕ → ℤ) (sides : ℤ) :
    List ℤ → ℕ → ℕ → ℤ → StagesResult
  | [], _, pos, incoming => ⟨[], [], pos, incoming⟩
  | b :: rest, index, pos, incoming =>
    let available := b + incoming
    let roll := randint stream pos 1 sides
    let processed := min available roll
    let buffer_after := available - processed
    let out : StageOutcome :=
      { stage := index
        roll := roll
        available := available
        processed := processed
        buffer_after := buffer_after
        starved := decide (available < roll)
        blocked := decide (0 < buffer_after) }
    let r := runStages stream sides rest (index + 1) (pos + 1) processed
    ⟨buffer_after :: r.bufs, out :: r.outs, r.pos, r.incoming⟩

/-- `DiceGame.play_round` (lines 78-115): inject `release_rate` into
`buffers[0]`, run the stage loop with `incoming = 0`, return the
`RoundOutcome` (`throughput` = final `incoming`, `wip` = sum of the
post-round buffers) together with the updated game state. -/
def DiceGame.play_round (g : DiceGame) (round_index : ℕ) :
    RoundOutcome × DiceGame :=
  let bufs := bumpHead g.release_rate g.buffers
  let r := runStages g.stream g.die_sides bufs 0 g.pos 0
  (⟨round_index, r.incoming, r.bufs.sum, r.outs⟩,
   { g with buffers := r.bufs, pos := r.pos })

/-- `DiceGame.__init__` (lines 55-76): validate the configuration
(raising `ValueError` on the first violated bound, in source order) and
build the initial state with `stages` buffers at `initial_buffer` and a
fresh PRNG stream at position 0. -/
def mkDiceGame (stages die_sides release_rate initial_buffer : ℤ)
    (stream : ℕ → ℤ) : Except String DiceGame :=
  if stages < 1 then .error "stages must be >= 1"
  else if die_sides < 2 then .error "die_sides must be >= 2"
  else if release_rate < 0 then .error "release_rate must be >= 0"
  else if initial_buffer < 0 then .error "initial_buffer must be >= 0"
  else .ok
    { stages := stages.toNat
      die_sides := die_sides
      release_rate := release_rate
      buffers := List.replicate stages.toNat initial_buffer
      stream := stream
      pos := 0 }

/-- The round loop of `simulate` (lines 123-125): run `n` rounds
starting at round index `i` (`simulate` starts at 1), accumulating the
history. -/
def runRounds : DiceGame → ℕ → ℕ → List RoundOutcome × DiceGame
  | g, 0, _ => ([], g)
  | g, n + 1, i =>
    let (ro, g') := g.play_round i
    let (h, g'') := runRounds g' n (i + 1)
    (ro :: h, g'')

/-- `statistics.mean` (idealised over `ℚ`; the Python call is only ever
made on nonempty lists). -/
def mean (xs : List ℚ) : ℚ := xs.sum / xs.length

/-- Population variance: mean of squared deviations from the mean.
`statistics.pstdev xs = Real.sqrt (pvariance xs)`. -/
def pvariance (xs : List ℚ) : ℚ :=
  mean (xs.map fun x => (x - mean xs) ^ 2)

/-- Default `StageOutcome` used with `List.getD` in statements. -/
def d0 : StageOutcome := ⟨0, 0, 0, 0, 0, false, false⟩

/-- The starved-count accumulation of `simulate` (lines 139-146) for
stage `j`: the number of stage outcomes in the history carrying stage
index `j` with the `starved` flag set. -/
def starvedCount (history : List RoundOutcome) (j : ℕ) : ℕ :=
  ((history.map RoundOutcome.stage_outcomes).flatten.filter
    (fun o => o.stage == j && o.starved)).length

/-- The blocked-count accumulation of `simulate` (lines 139-146) for
stage `j`. -/
def blockedCount (history : List RoundOutcome) (j : ℕ) : ℕ :=
  ((history.map RoundOutcome.stage_outcomes).flatten.filter
    (fun o => o.stage == j && o.blocked)).length

/-- `DiceGame.simulate` (lines 117-160): validate `rounds >= 1`, run the
rounds in order, and aggregate the history into a `SimulationSummary`
(the stdev field is the function `SimulationSummary.throughput_stdev`
below).  Returns the summary together with the post-run game state. -/
def DiceGame.simulate (g : DiceGame) (rounds : ℤ) :
    Except String (SimulationSummary × DiceGame) :=
  if rounds < 1 then .error "rounds must be >= 1"
  else
    let (history, g') := runRounds g rounds.toNat 1
    let throughput_series : List ℚ :=
      history.map fun r => (r.throughput : ℚ)
    let wip_series : List ℚ := history.map fun r => (r.wip : ℚ)
    .ok
      ({ rounds := history
         avg_throughput := mean throughput_series
         throughput_pvariance :=
           if 1 < throughput_series.length then pvariance throughput_series
           else 0
         avg_wip := mean wip_series
         total_throughput := (history.map RoundOutcome.throughput).sum
         stage_starved_ratio :=
           (List.range g.stages).map fun j =>
             (starvedCount history j : ℚ) / (rounds : ℚ)
         stage_blocked_ratio :=
           (List.range g.stages).map fun j =>
             (blockedCount history j : ℚ) / (rounds : ℚ) },
       g')

/-- The `throughput_stdev` field of the Python `SimulationSummary`
(lines 131-135): `statistics.pstdev` of the per-round throughput series
when more than one round, else `0.0`.  Mathematically it is the square
root of the stored `throughput_pvariance`. -/
noncomputable def SimulationSummary.throughput_stdev
    (s : SimulationSummary) : ℝ :=
  Real.sqrt (s.throughput_pvariance : ℝ)

/-- `random.Random(seed)` followed by `DiceGame(...)`: construct a game
whose raw stream is the one the PRNG family `gen` assigns to `seed`
(lines 76 and 266-273). -/
def mkSeededGame (gen : ℤ → ℕ → ℤ)
    (stages die_sides release_rate initial_buffer seed : ℤ) :
    Except String DiceGame :=
  mkDiceGame stages die_sides release_rate initial_buffer (gen seed)

/-- One seeded construction followed by `simulate` — the body of one
iteration of the replication loop of `main` (lines 265-275), keeping
the produced summary. -/
def runSeeded (gen : ℤ → ℕ → ℤ)
    (stages die_sides release_rate initial_buffer seed rounds : ℤ) :
    Except String SimulationSummary :=
  (mkSeededGame gen stages die_sides release_rate initial_buffer
    seed).bind
    fun g => (g.simulate rounds).map Prod.fst

/-- The replication loop of `main` with an explicit base seed
(lines 264-275): replication `rep` (0-based) is seeded
`base_seed + rep` with a freshly constructed game. -/
def replicationSummaries (gen : ℤ → ℕ → ℤ)
    (stages die_sides release_rate initial_buffer base_seed : ℤ)
    (replications : ℕ) (rounds : ℤ) : List (Except String SimulationSummary) :=
  (List.range replications).map fun (rep : ℕ) =>
    runSeeded gen stages die_sides release_rate initial_buffer
      (base_seed + (rep : ℤ)) rounds

/-- `overall_avg_throughput` of `_print_summary` (line 187). -/
def overall_avg_throughput (summaries : List SimulationSummary) : ℚ :=
  mean (summaries.map SimulationSummary.avg_throughput)

/-- `overall_avg_wip` of `_print_summary` (line 188). -/
def overall_avg_wip (summaries : List SimulationSummary) : ℚ :=
  mean (summaries.map SimulationSummary.avg_wip)

/-- The cycle-time computation of `_print_summary` (lines 193-197):
mean WIP over mean throughput when the latter is positive, and the
`float("nan")` sentinel — modelled as `none` — otherwise.  A total
function: no division error can be raised. -/
def cycle_time (summaries : List SimulationSummary) : Option ℚ :=
  if 0 < overall_avg_throughput summaries then
    some (overall_avg_wip summaries / overall_avg_throughput summaries)
  else none

/-! ## Basic lemmas about the stage loop -/

theorem runStages_cons (stream : ℕ → ℤ) (sides : ℤ) (b : ℤ) (rest : List ℤ)
    (idx pos : ℕ) (inc : ℤ) :
    runStages stream sides (b :: rest) idx pos inc =
      ⟨(b + inc - min (b + inc) (randint stream pos 1 sides)) ::
        (runStages stream sides rest (idx + 1) (pos + 1)
          (min (b + inc) (randint stream pos 1 sides))).bufs,
       { stage := idx
         roll := randint stream pos 1 sides
         available := b + inc
         processed := min (b + inc) (randint stream pos 1 sides)
         buffer_after := b + inc - min (b + inc) (randint stream pos 1 sides)
         starved := decide (b + inc < randint stream pos 1 sides)
         blocked :=
           decide (0 < b + inc - min (b + inc) (randint stream pos 1 sides)) } ::
        (runStages stream sides rest (idx + 1) (pos + 1)
          (min (b + inc) (randint stream pos 1 sides))).outs,
       (runStages stream sides rest (idx + 1) (pos + 1)
          (min (b + inc) (randint stream pos 1 sides))).pos,
       (runStages stream sides rest (idx + 1) (pos + 1)
          (min (b + inc) (randint stream pos 1 sides))).incoming⟩ := rfl

theorem runStages_bufs_length (stream : ℕ → ℤ) (sides : ℤ) :
    ∀ (bufs : List ℤ) (idx pos : ℕ) (inc : ℤ),
      (runStages stream sides bufs idx pos inc).bufs.length = bufs.length
  | [], _, _, _ => rfl
  | _ :: rest, idx, pos, inc => by
    simp [runStages_cons, runStages_bufs_length stream sides rest]

theorem runStages_outs_length (stream : ℕ → ℤ) (sides : ℤ) :
    ∀ (bufs : List ℤ) (idx pos : ℕ) (inc : ℤ),
      (runStages stream sides bufs idx pos inc).outs.length = bufs.length
  | [], _, _, _ => rfl
  | _ :: rest, idx, pos, inc => by
    simp [runStages_cons, runStages_outs_length stream sides rest]

theorem runStages_pos (stream : ℕ → ℤ) (sides : ℤ) :
    ∀ (bufs : List ℤ) (idx pos : ℕ) (inc : ℤ),
      (runStages stream sides bufs idx pos inc).pos = pos + bufs.length
  | [], _, _, _ => rfl
  | _ :: rest, idx, pos, inc => by
    simp [runStages_cons, runStages_pos stream sides rest]
    omega

/-- Material conservation through the stage loop: what is in the buffers
plus what is flowing in equals what remains in the buffers plus what
flows out. -/
theorem runStages_sum (stream : ℕ → ℤ) (sides : ℤ) :
    ∀ (bufs : List ℤ) (idx pos : ℕ) (inc : ℤ),
      (runStages stream sides bufs idx pos inc).bufs.sum +
        (runStages stream sides bufs idx pos inc).incoming = bufs.sum + inc
  | [], _, _, _ => by simp [runStages]
  | b :: rest, idx, pos, inc => by
    have ih := runStages_sum stream sides rest (idx + 1) (pos + 1)
      (min (b + inc) (randint stream pos 1 sides))
    simp only [runStages_cons, List.sum_cons]
    omega

/-- Every stage outcome emitted by the loop has its derived fields
computed by the source formulas from its own `available` and `roll`. -/
theorem runStages_mem_shape (stream : ℕ → ℤ) (sides : ℤ) :
    ∀ (bufs : List ℤ) (idx pos : ℕ) (inc : ℤ),
      ∀ o ∈ (runStages stream sides bufs idx pos inc).outs,
        o.processed = min o.available o.roll ∧
        o.buffer_after = o.available - o.processed ∧
        o.starved = decide (o.available < o.roll) ∧
        o.blocked = decide (0 < o.buffer_after)
  | [], _, _, _ => by simp [runStages]
  | b :: rest, idx, pos, inc => by
    intro o ho
    rw [runStages_cons] at ho
    rcases List.mem_cons.mp ho with h | h
    · subst h
      exact ⟨rfl, rfl, rfl, rfl⟩
    · exact runStages_mem_shape stream sides rest (idx + 1) (pos + 1) _ o h

/-- `randint` over `[1, sides]` always lands in `[1, sides]` when the
die has at least one face — the contract of `rng.randint(1, n)`. -/
theorem randint_bounds (stream : ℕ → ℤ) (pos : ℕ) (sides : ℤ)
    (h : 1 ≤ sides) :
    1 ≤ randint stream pos 1 sides ∧ randint stream pos 1 sides ≤ sides := by
  unfold randint
  have h0 : sides - 1 + 1 = sides := by ring
  rw [h0]
  have hne : sides ≠ 0 := by omega
  have h1 := Int.emod_nonneg (stream pos) hne
  have h2 := Int.emod_lt_of_pos (stream pos) (show (0:ℤ) < sides by omega)
  omega

/-- Nonnegativity through the stage loop: with at least a one-sided die,
nonnegative incoming flow and nonnegative buffers, every produced
quantity stays nonnegative and `processed` never exceeds `available`. -/
theorem runStages_nonneg (stream : ℕ → ℤ) (sides : ℤ) (hs : 1 ≤ sides) :
    ∀ (bufs : List ℤ) (idx pos : ℕ) (inc : ℤ), 0 ≤ inc →
      (∀ b ∈ bufs, 0 ≤ b) →
      (∀ b ∈ (runStages stream sides bufs idx pos inc).bufs, 0 ≤ b) ∧
      0 ≤ (runStages stream sides bufs idx pos inc).incoming ∧
      (∀ o ∈ (runStages stream sides bufs idx pos inc).outs,
        0 ≤ o.available ∧ 0 ≤ o.roll ∧ 0 ≤ o.processed ∧
          o.processed ≤ o.available ∧ 0 ≤ o.buffer_after)
  | [], _, _, inc, hinc, _ => by
    refine ⟨by simp [runStages], by simpa [runStages] using hinc,
      by simp [runStages]⟩
  | b :: rest, idx, pos, inc, hinc, hbufs => by
    have hb : 0 ≤ b := hbufs b (List.mem_cons_self b rest)
    have hav : 0 ≤ b + inc := by omega
    have hroll := (randint_bounds stream pos sides hs).1
    have hproc : 0 ≤ min (b + inc) (randint stream pos 1 sides) := by
      exact le_min hav (by omega)
    have ih := runStages_nonneg stream sides hs rest (idx + 1) (pos + 1)
      (min (b + inc) (randint stream pos 1 sides)) hproc
      (fun x hx => hbufs x (List.mem_cons_of_mem b hx))
    rw [runStages_cons]
    refine ⟨?_, ih.2.1, ?_⟩
    · intro x hx
      rcases List.mem_cons.mp hx with h | h
      · subst h
        have := min_le_left (b + inc) (randint stream pos 1 sides)
        omega
      · exact ih.1 x h
    · intro o ho
      rcases List.mem_cons.mp ho with h | h
      · subst h
        dsimp only
        refine ⟨hav, by omega, hproc, min_le_left _ _, ?_⟩
        have := min_le_left (b + inc) (randint stream pos 1 sides)
        omega
      · exact ih.2.2 o h

/-- The loop's final `incoming` is the last emitted outcome's
`processed` (or the initial `incoming` when there are no stages). -/
theorem runStages_incoming_getLast (stream : ℕ → ℤ) (sides : ℤ) :
    ∀ (bufs : List ℤ) (idx pos : ℕ) (inc : ℤ),
      (runStages stream sides bufs idx pos inc).incoming =
        ((runStages stream sides bufs idx pos inc).outs.map
          StageOutcome.processed).getLastD inc
  | [], _, _, _ => by simp [runStages]
  | b :: rest, idx, pos, inc => by
    have ih := runStages_incoming_getLast stream sides rest (idx + 1)
      (pos + 1) (min (b + inc) (randint stream pos 1 sides))
    rw [runStages_cons]
    rcases h : (runStages stream sides rest (idx + 1) (pos + 1)
        (min (b + inc) (randint stream pos 1 sides))).outs with _ | ⟨o, outs⟩
    · simpa [h] using ih
    · simpa [h] using ih

/-- The loop emits no outcome exactly when there is no stage. -/
theorem runStages_outs_eq_nil (stream : ℕ → ℤ) (sides : ℤ)
    (bufs : List ℤ) (idx pos : ℕ) (inc : ℤ) :
    (runStages stream sides bufs idx pos inc).outs = [] ↔ bufs = [] := by
  constructor
  · intro h
    have := runStages_outs_length stream sides bufs idx pos inc
    rw [h] at this
    exact List.length_eq_zero.mp this.symm
  · intro h
    subst h
    rfl

/-- Index-wise characterisation of the stage loop: the `i`-th outcome
carries stage index `idx + i`, uses the `i`-th draw of the stream, sees
`available` = its buffer plus the previous stage's `processed` (the
initial `incoming` for `i = 0`), and its derived fields and the updated
buffer follow the source formulas. -/
theorem runStages_getD (stream : ℕ → ℤ) (sides : ℤ) (bufs : List ℤ) :
    ∀ (idx pos : ℕ) (inc : ℤ) (i : ℕ), i < bufs.length →
      ((runStages stream sides bufs idx pos inc).outs.getD i d0).stage =
        idx + i ∧
      ((runStages stream sides bufs idx pos inc).outs.getD i d0).roll =
        randint stream (pos + i) 1 sides ∧
      ((runStages stream sides bufs idx pos inc).outs.getD i d0).available =
        bufs.getD i 0 +
          (if i = 0 then inc
           else ((runStages stream sides bufs idx pos inc).outs.getD (i - 1)
             d0).processed) ∧
      ((runStages stream sides bufs idx pos inc).outs.getD i d0).processed =
        min ((runStages stream sides bufs idx pos inc).outs.getD i
          d0).available
          ((runStages stream sides bufs idx pos inc).outs.getD i d0).roll ∧
      ((runStages stream sides bufs idx pos inc).outs.getD i
          d0).buffer_after =
        ((runStages stream sides bufs idx pos inc).outs.getD i
          d0).available -
          ((runStages stream sides bufs idx pos inc).outs.getD i
            d0).processed ∧
      ((runStages stream sides bufs idx pos inc).outs.getD i d0).starved =
        decide (((runStages stream sides bufs idx pos inc).outs.getD i
          d0).available <
          ((runStages stream sides bufs idx pos inc).outs.getD i d0).roll) ∧
      ((runStages stream sides bufs idx pos inc).outs.getD i d0).blocked =
        decide (0 < ((runStages stream sides bufs idx pos inc).outs.getD i
          d0).buffer_after) ∧
      (runStages stream sides bufs idx pos inc).bufs.getD i 0 =
        ((runStages stream sides bufs idx pos inc).outs.getD i
          d0).buffer_after := by
  induction bufs with
  | nil =>
    intro idx pos inc i hi
    simp at hi
  | cons b rest ih =>
    intro idx pos inc i hi
    rw [runStages_cons]
    cases i with
    | zero =>
      simp
    | succ j =>
      have hj : j < rest.length := by
        simpa using Nat.lt_of_succ_lt_succ hi
      obtain ⟨h1, h2, h3, h4, h5, h6, h7, h8⟩ :=
        ih (idx + 1) (pos + 1) (min (b + inc) (randint stream pos 1 sides))
          j hj
      simp only [List.getD_cons_succ]
      refine ⟨?_, ?_, ?_, h4, h5, h6, h7, h8⟩
      · rw [h1]; omega
      · have hpp : pos + 1 + j = pos + (j + 1) := by omega
        rw [h2, hpp]
      · rw [if_neg (Nat.succ_ne_zero j), Nat.succ_sub_one]
        cases j with
        | zero =>
          rw [h3, if_pos rfl]
          simp only [List.getD_cons_zero]
        | succ k =>
          rw [h3, if_neg (Nat.succ_ne_zero k), Nat.succ_sub_one]
          simp only [List.getD_cons_succ]

/-! ## Well-formedness of game states -/

/-- Invariant of every constructed `DiceGame`: at least one stage
(nonempty buffer list), at least a one-sided die, nonnegative release
rate, nonnegative buffers.  Established by `mkDiceGame` and preserved
by `play_round`. -/
def DiceGame.WF (g : DiceGame) : Prop :=
  g.buffers ≠ [] ∧ 1 ≤ g.die_sides ∧ 0 ≤ g.release_rate ∧
    ∀ b ∈ g.buffers, 0 ≤ b

theorem bumpHead_length (r : ℤ) : ∀ bufs : List ℤ,
    (bumpHead r bufs).length = bufs.length
  | [] => rfl
  | _ :: _ => rfl

theorem bumpHead_sum (r : ℤ) : ∀ bufs : List ℤ, bufs ≠ [] →
    (bumpHead r bufs).sum = bufs.sum + r
  | [], h => absurd rfl h
  | b :: rest, _ => by simp [bumpHead]; ring

theorem bumpHead_nonneg (r : ℤ) (hr : 0 ≤ r) :
    ∀ bufs : List ℤ, (∀ b ∈ bufs, 0 ≤ b) →
      ∀ b ∈ bumpHead r bufs, 0 ≤ b
  | [], _, b, hb => by simp [bumpHead] at hb
  | x :: rest, h, b, hb => by
    rcases List.mem_cons.mp hb with h1 | h1
    · have := h x (List.mem_cons_self x rest)
      omega
    · exact h b (List.mem_cons_of_mem x h1)

/-- Successful construction yields a well-formed game. -/
theorem mkDiceGame_ok_WF (stages die_sides release_rate initial_buffer : ℤ)
    (stream : ℕ → ℤ) (g : DiceGame)
    (h : mkDiceGame stages die_sides release_rate initial_buffer stream =
      .ok g) :
    g.WF ∧ g.stages = stages.toNat ∧ g.die_sides = die_sides ∧
      g.release_rate = release_rate ∧
      g.buffers = List.replicate stages.toNat initial_buffer ∧
      g.pos = 0 := by
  unfold mkDiceGame at h
  split at h
  · exact absurd h (by simp)
  next h1 =>
  split at h
  · exact absurd h (by simp)
  next h2 =>
  split at h
  · exact absurd h (by simp)
  next h3 =>
  split at h
  · exact absurd h (by simp)
  next h4 =>
  injection h with h
  subst h
  refine ⟨⟨?_, ?_, ?_, ?_⟩, rfl, rfl, rfl, rfl, rfl⟩
  · simp only [ne_eq, List.replicate_eq_nil_iff]
    omega
  · show (1 : ℤ) ≤ die_sides
    omega
  · show (0 : ℤ) ≤ release_rate
    omega
  · intro b hb
    have := List.eq_of_mem_replicate hb
    omega

/-- `play_round` preserves well-formedness. -/
theorem play_round_WF (g : DiceGame) (h : g.WF) (ri : ℕ) :
    (g.play_round ri).2.WF := by
  obtain ⟨hne, hs, hr, hb⟩ := h
  have hbump := bumpHead_nonneg g.release_rate hr g.buffers hb
  have hnn := runStages_nonneg g.stream g.die_sides hs
    (bumpHead g.release_rate g.buffers) 0 g.pos 0 le_rfl hbump
  refine ⟨?_, hs, hr, hnn.1⟩
  have hlen := runStages_bufs_length g.stream g.die_sides
    (bumpHead g.release_rate g.buffers) 0 g.pos 0
  rw [bumpHead_length] at hlen
  show (runStages g.stream g.die_sides (bumpHead g.release_rate g.buffers)
    0 g.pos 0).bufs ≠ []
  intro hc
  rw [hc] at hlen
  exact hne (List.length_eq_zero.mp hlen.symm)

/-- Under well-formedness, a round's throughput is nonnegative. -/
theorem play_round_throughput_nonneg (g : DiceGame) (h : g.WF) (ri : ℕ) :
    0 ≤ (g.play_round ri).1.throughput := by
  obtain ⟨hne, hs, hr, hb⟩ := h
  exact (runStages_nonneg g.stream g.die_sides hs
    (bumpHead g.release_rate g.buffers) 0 g.pos 0 le_rfl
    (bumpHead_nonneg g.release_rate hr g.buffers hb)).2.1

/-- Material conservation per round: the reported WIP is the pre-round
buffer total, plus the released units, minus the round's throughput. -/
theorem play_round_conservation (g : DiceGame) (hne : g.buffers ≠ [])
    (ri : ℕ) :
    (g.play_round ri).1.wip =
      g.buffers.sum + g.release_rate - (g.play_round ri).1.throughput := by
  have hsum := runStages_sum g.stream g.die_sides
    (bumpHead g.release_rate g.buffers) 0 g.pos 0
  rw [bumpHead_sum g.release_rate g.buffers hne] at hsum
  have hw : (g.play_round ri).1.wip =
      (runStages g.stream g.die_sides (bumpHead g.release_rate g.buffers)
        0 g.pos 0).bufs.sum := rfl
  have ht : (g.play_round ri).1.throughput =
      (runStages g.stream g.die_sides (bumpHead g.release_rate g.buffers)
        0 g.pos 0).incoming := rfl
  rw [hw, ht]
  omega

/-- The reported WIP is the total of the post-round buffers. -/
theorem play_round_wip_eq_post_sum (g : DiceGame) (ri : ℕ) :
    (g.play_round ri).1.wip = (g.play_round ri).2.buffers.sum := rfl

/-- The round's throughput is the last stage outcome's `processed`. -/
theorem play_round_throughput_last (g : DiceGame) (ri : ℕ)
    (o : StageOutcome)
    (h : (g.play_round ri).1.stage_outcomes.getLast? = some o) :
    (g.play_round ri).1.throughput = o.processed := by
  have hlast := runStages_incoming_getLast g.stream g.die_sides
    (bumpHead g.release_rate g.buffers) 0 g.pos 0
  show (runStages g.stream g.die_sides (bumpHead g.release_rate g.buffers)
    0 g.pos 0).incoming = o.processed
  rw [hlast, List.getLastD_eq_getLast?, List.getLast?_map]
  have : (runStages g.stream g.die_sides
      (bumpHead g.release_rate g.buffers) 0 g.pos 0).outs.getLast? =
      some o := h
  rw [this]
  rfl

/-! ## The round loop -/

theorem runRounds_length : ∀ (n : ℕ) (g : DiceGame) (i : ℕ),
    (runRounds g n i).1.length = n
  | 0, _, _ => rfl
  | n + 1, g, i => by
    simp only [runRounds]
    simpa using runRounds_length n (g.play_round i).2 (i + 1)

theorem runRounds_WF : ∀ (n : ℕ) (g : DiceGame), g.WF → ∀ i : ℕ,
    (runRounds g n i).2.WF
  | 0, _, h, _ => h
  | n + 1, g, h, i => by
    simp only [runRounds]
    exact runRounds_WF n (g.play_round i).2 (play_round_WF g h i) (i + 1)

theorem runRounds_throughput_nonneg : ∀ (n : ℕ) (g : DiceGame), g.WF →
    ∀ i : ℕ, ∀ ro ∈ (runRounds g n i).1, 0 ≤ ro.throughput
  | 0, _, _, _, ro, hro => by simp [runRounds] at hro
  | n + 1, g, h, i, ro, hro => by
    simp only [runRounds] at hro
    rcases List.mem_cons.mp hro with h1 | h1
    · subst h1
      exact play_round_throughput_nonneg g h i
    · exact runRounds_throughput_nonneg n (g.play_round i).2
        (play_round_WF g h i) (i + 1) ro h1

/-- Every round outcome in the history is produced by `play_round` on
some intermediate game state, well-formed whenever the initial state
is. -/
theorem runRounds_mem : ∀ (n : ℕ) (g : DiceGame) (i : ℕ),
    ∀ ro ∈ (runRounds g n i).1, ∃ (g' : DiceGame) (j : ℕ),
      ro = (g'.play_round j).1 ∧ (g.WF → g'.WF)
  | 0, _, _, ro, hro => by simp [runRounds] at hro
  | n + 1, g, i, ro, hro => by
    simp only [runRounds] at hro
    rcases List.mem_cons.mp hro with h1 | h1
    · exact ⟨g, i, h1, fun h => h⟩
    · obtain ⟨g', j, hj, hwf⟩ := runRounds_mem n (g.play_round i).2 (i + 1)
        ro h1
      exact ⟨g', j, hj, fun h => hwf (play_round_WF g h i)⟩

/-! ## Inversion of `simulate` -/

theorem simulate_ok_inv (g : DiceGame) (rounds : ℤ)
    (s : SimulationSummary) (g' : DiceGame)
    (h : g.simulate rounds = .ok (s, g')) :
    1 ≤ rounds ∧
    s.rounds = (runRounds g rounds.toNat 1).1 ∧
    g' = (runRounds g rounds.toNat 1).2 ∧
    s.avg_throughput =
      mean (s.rounds.map fun r => (r.throughput : ℚ)) ∧
    s.throughput_pvariance =
      (if 1 < s.rounds.length then
        pvariance (s.rounds.map fun r => (r.throughput : ℚ)) else 0) ∧
    s.avg_wip = mean (s.rounds.map fun r => (r.wip : ℚ)) ∧
    s.total_throughput = (s.rounds.map RoundOutcome.throughput).sum ∧
    s.stage_starved_ratio =
      ((List.range g.stages).map fun j =>
        (starvedCount s.rounds j : ℚ) / (rounds : ℚ)) ∧
    s.stage_blocked_ratio =
      ((List.range g.stages).map fun j =>
        (blockedCount s.rounds j : ℚ) / (rounds : ℚ)) := by
  unfold DiceGame.simulate at h
  split at h
  · exact absurd h (by simp)
  next hlt =>
  injection h with h
  have h1 := congrArg Prod.fst h
  have h2 := congrArg Prod.snd h
  simp only at h1 h2
  subst h1
  refine ⟨by omega, rfl, h2.symm, rfl, ?_, rfl, rfl, rfl, rfl⟩
  simp only [List.length_map]

theorem simulate_error_iff (g : DiceGame) (rounds : ℤ) :
    (∃ msg, g.simulate rounds = .error msg) ↔ rounds < 1 := by
  unfold DiceGame.simulate
  split
  next hlt => exact ⟨fun _ => hlt, fun _ => ⟨_, rfl⟩⟩
  next hlt =>
    constructor
    · rintro ⟨msg, hmsg⟩
      exact absurd hmsg (by simp)
    · omega

/-! ## Statistics lemmas -/

theorem mean_nonneg (xs : List ℚ) (h : ∀ x ∈ xs, 0 ≤ x) : 0 ≤ mean xs :=
  div_nonneg (List.sum_nonneg h) (Nat.cast_nonneg _)

theorem mean_singleton (x : ℚ) : mean [x] = x := by
  simp [mean]

theorem pvariance_singleton (x : ℚ) : pvariance [x] = 0 := by
  simp [pvariance, mean]

/-! ## Concrete objects used by the witnesses -/

/-- A concrete raw stream (all draws fold to the low end). -/
def wStream : ℕ → ℤ := fun _ => 0

/-- The game `DiceGame(stages=1, die_sides=2, release_rate=0,
initial_buffer=0)` with stream `wStream`. -/
def wGame : DiceGame := ⟨1, 2, 0, [0], wStream, 0⟩

theorem wGame_mk : mkDiceGame 1 2 0 0 wStream = .ok wGame := rfl

/-- The single stage outcome of one round of `wGame`. -/
def wOutcome : StageOutcome := ⟨0, 1, 0, 0, 0, true, false⟩

/-- The single round outcome of `wGame.simulate 1`. -/
def wRound : RoundOutcome := ⟨1, 0, 0, [wOutcome]⟩

/-- The summary of `wGame.simulate 1`. -/
def wSummary : SimulationSummary := ⟨[wRound], 0, 0, 0, 0, [1], [0]⟩

/-- The post-run state of `wGame.simulate 1`. -/
def wGame2 : DiceGame := ⟨1, 2, 0, [0], wStream, 1⟩

theorem wGame_simulate : wGame.simulate 1 = .ok (wSummary, wGame2) := by
  simp [DiceGame.simulate, runRounds, DiceGame.play_round, runStages,
    randint, bumpHead, wGame, wStream, wSummary, wRound, wOutcome,
    wGame2, mean, starvedCount, blockedCount, pvariance,
    List.range_succ, List.filter_cons, List.filter_nil]

theorem wSummary_overall_avg : overall_avg_throughput [wSummary] = 0 := by
  simp [overall_avg_throughput, wSummary, mean]

theorem wGame_WF : wGame.WF := by
  refine ⟨by simp [wGame], by norm_num [wGame], by norm_num [wGame], ?_⟩
  intro b hb
  simp [wGame] at hb
  omega

/-! ## The claims -/

/-- C2: every stage outcome of a round played from a well-formed state
(the constructor establishes well-formedness and `play_round` preserves
it) satisfies `0 ≤ processed ≤ available` and
`buffer_after = available - processed ≥ 0`; the round's `throughput` is
the last stage outcome's `processed` (the outcome list is nonempty), and
its `wip` is the sum of the stage buffers after the round. -/
theorem claim_C2 (g : DiceGame) (h : g.WF) (ri : ℕ) :
    (∀ o ∈ (g.play_round ri).1.stage_outcomes,
      0 ≤ o.processed ∧ o.processed ≤ o.available ∧
        o.buffer_after = o.available - o.processed ∧ 0 ≤ o.buffer_after) ∧
    (g.play_round ri).1.stage_outcomes ≠ [] ∧
    (∀ o, (g.play_round ri).1.stage_outcomes.getLast? = some o →
      (g.play_round ri).1.throughput = o.processed) ∧
    (g.play_round ri).1.wip = (g.play_round ri).2.buffers.sum := by
  obtain ⟨hne, hs, hr, hb⟩ := h
  have hnn := runStages_nonneg g.stream g.die_sides hs
    (bumpHead g.release_rate g.buffers) 0 g.pos 0 le_rfl
    (bumpHead_nonneg g.release_rate hr g.buffers hb)
  have hshape := runStages_mem_shape g.stream g.die_sides
    (bumpHead g.release_rate g.buffers) 0 g.pos 0
  refine ⟨?_, ?_, ?_, play_round_wip_eq_post_sum g ri⟩
  · intro o ho
    obtain ⟨hav, hroll, hproc, hle, hafter⟩ := hnn.2.2 o ho
    obtain ⟨_, hba, _, _⟩ := hshape o ho
    exact ⟨hproc, hle, hba, hafter⟩
  · show (runStages g.stream g.die_sides (bumpHead g.release_rate
      g.buffers) 0 g.pos 0).outs ≠ []
    rw [ne_eq, runStages_outs_eq_nil]
    cases hg : g.buffers with
    | nil => exact absurd hg hne
    | cons x l => simp [bumpHead]
  · intro o ho
    exact play_round_throughput_last g ri o ho

/-- C2 witness: the concrete game `wGame` after one round. -/
theorem claim_C2_witness :
    wGame.WF ∧
    ((wGame.play_round 1).1.stage_outcomes ≠ [] ∧
      (wGame.play_round 1).1.wip = (wGame.play_round 1).2.buffers.sum) :=
  ⟨wGame_WF,
    (claim_C2 wGame wGame_WF 1).2.1,
    (claim_C2 wGame wGame_WF 1).2.2.2⟩

/-- C3: reproducibility.  A `DiceGame` seeded with an explicit seed is a
deterministic function of its construction parameters and the seed: for
any deterministic PRNG family `gen` (the Mersenne Twister of
`random.Random` is one), two constructions with identical parameters
and identical seeds, simulated for the same number of rounds, return
bit-identical results — in particular identical `RoundOutcome`
histories with identical rolls, available, processed, buffer_after,
starved, blocked, throughput and wip fields. -/
theorem claim_C3 (gen : ℤ → ℕ → ℤ)
    (stages die_sides release_rate initial_buffer : ℤ)
    (seed1 seed2 rounds : ℤ) (h : seed1 = seed2) :
    runSeeded gen stages die_sides release_rate initial_buffer seed1
        rounds =
      runSeeded gen stages die_sides release_rate initial_buffer seed2
        rounds := by
  subst h
  rfl

/-- C3 witness: identical seeds at a concrete instantiation. -/
theorem claim_C3_witness :
    (7 : ℤ) = 7 ∧
    runSeeded (fun s k => s + k) 1 6 4 3 7 10 =
      runSeeded (fun s k => s + k) 1 6 4 3 7 10 :=
  ⟨rfl, claim_C3 (fun s k => s + k) 1 6 4 3 7 7 10 rfl⟩

/-- C9: material conservation and preservation of nonnegative buffers.
For a well-formed state (all buffers nonnegative, together with the
constructor-guaranteed facts `stages >= 1`, `die_sides >= 2`,
`release_rate >= 0`), the `wip` reported by `play_round` equals the
pre-round buffer total plus `release_rate` minus the round's
throughput, and all buffers are nonnegative afterwards. -/
theorem claim_C9 (g : DiceGame) (h : g.WF) (ri : ℕ) :
    (g.play_round ri).1.wip =
      g.buffers.sum + g.release_rate - (g.play_round ri).1.throughput ∧
    ∀ b ∈ (g.play_round ri).2.buffers, 0 ≤ b := by
  refine ⟨play_round_conservation g h.1 ri, ?_⟩
  exact (play_round_WF g h ri).2.2.2

/-- C9 witness: conservation on the concrete game `wGame`. -/
theorem claim_C9_witness :
    wGame.WF ∧
    (wGame.play_round 1).1.wip =
      wGame.buffers.sum + wGame.release_rate -
        (wGame.play_round 1).1.throughput :=
  ⟨wGame_WF, (claim_C9 wGame wGame_WF 1).1⟩

/-- C10: a starved stage is never blocked in the same round.  In every
stage outcome produced by `play_round`, if `available < roll` then
`processed = available` and `buffer_after = 0`, and the `starved` and
`blocked` flags are never both set. -/
theorem claim_C10 (g : DiceGame) (ri : ℕ) :
    ∀ o ∈ (g.play_round ri).1.stage_outcomes,
      (o.available < o.roll →
        o.processed = o.available ∧ o.buffer_after = 0) ∧
      ¬(o.starved = true ∧ o.blocked = true) := by
  intro o ho
  obtain ⟨hproc, hba, hstar, hblock⟩ := runStages_mem_shape g.stream
    g.die_sides (bumpHead g.release_rate g.buffers) 0 g.pos 0 o ho
  constructor
  · intro hlt
    have hm : min o.available o.roll = o.available :=
      min_eq_left (le_of_lt hlt)
    constructor
    · rw [hproc, hm]
    · rw [hba, hproc, hm]
      ring
  · rintro ⟨h1, h2⟩
    rw [hstar] at h1
    rw [hblock] at h2
    have hlt : o.available < o.roll := of_decide_eq_true h1
    have hpos : 0 < o.buffer_after := of_decide_eq_true h2
    have hm : min o.available o.roll = o.available :=
      min_eq_left (le_of_lt hlt)
    rw [hba, hproc, hm] at hpos
    omega

/-- C10 witness: the single (starved, unblocked) outcome of one round
of the concrete game `wGame`. -/
theorem claim_C10_witness :
    (⟨0, 1, 0, 0, 0, true, false⟩ : StageOutcome) ∈
        (wGame.play_round 1).1.stage_outcomes ∧
    ¬((⟨0, 1, 0, 0, 0, true, false⟩ : StageOutcome).starved = true ∧
      (⟨0, 1, 0, 0, 0, true, false⟩ : StageOutcome).blocked = true) :=
  ⟨by decide,
    (claim_C10 wGame 1 ⟨0, 1, 0, 0, 0, true, false⟩ (by decide)).2⟩

/-- C6: `DiceGame` construction fails (with a `ValueError`, modelled as
`Except.error`) exactly when `stages < 1`, `die_sides < 2`,
`release_rate < 0` or `initial_buffer < 0`, and `simulate` fails
exactly when `rounds < 1`.  The `simulate` error is a fixed value,
independent of the game state: no round is executed, no partial history
is produced and (the embedding being state-passing) the caller's
buffers are untouched. -/
theorem claim_C6 (stages die_sides release_rate initial_buffer : ℤ)
    (stream : ℕ → ℤ) (g : DiceGame) (rounds : ℤ) :
    ((∃ msg, mkDiceGame stages die_sides release_rate initial_buffer
        stream = .error msg) ↔
      (stages < 1 ∨ die_sides < 2 ∨ release_rate < 0 ∨
        initial_buffer < 0)) ∧
    ((∃ msg, g.simulate rounds = .error msg) ↔ rounds < 1) ∧
    (rounds < 1 → g.simulate rounds = .error "rounds must be >= 1") := by
  refine ⟨?_, simulate_error_iff g rounds, ?_⟩
  · unfold mkDiceGame
    split
    next h1 => exact ⟨fun _ => Or.inl h1, fun _ => ⟨_, rfl⟩⟩
    next h1 =>
    split
    next h2 => exact ⟨fun _ => Or.inr (Or.inl h2), fun _ => ⟨_, rfl⟩⟩
    next h2 =>
    split
    next h3 =>
      exact ⟨fun _ => Or.inr (Or.inr (Or.inl h3)), fun _ => ⟨_, rfl⟩⟩
    next h3 =>
    split
    next h4 =>
      exact ⟨fun _ => Or.inr (Or.inr (Or.inr h4)), fun _ => ⟨_, rfl⟩⟩
    next h4 =>
      constructor
      · rintro ⟨msg, hmsg⟩
        exact absurd hmsg (by simp)
      · intro hc
        rcases hc with h | h | h | h <;> omega
  · intro hlt
    unfold DiceGame.simulate
    rw [if_pos hlt]

theorem bumpHead_getD_zero (r : ℤ) (bufs : List ℤ) (h : bufs ≠ []) :
    (bumpHead r bufs).getD 0 0 = bufs.getD 0 0 + r := by
  cases bufs with
  | nil => exact absurd rfl h
  | cons b rest => rfl

theorem bumpHead_getD_succ (r : ℤ) (bufs : List ℤ) (i : ℕ) :
    (bumpHead r bufs).getD (i + 1) 0 = bufs.getD (i + 1) 0 := by
  cases bufs with
  | nil => rfl
  | cons b rest => rfl

/-- C1: the round transition rule.  For any game state with a nonempty
stage chain and a die with at least one face (both guaranteed by the
construction preconditions `stages >= 1` and `die_sides >= 2`, and
preserved by every round — so this covers every round of every
constructed game), `play_round` emits one stage outcome per stage, in
stage order, making exactly one draw per stage (the PRNG position
advances by the stage count, stage `i` using draw `pos + i`); stage 0
sees `available = buffer[0] + release_rate` (the units released into
`buffer[0]` before any stage runs, with no other incoming), stage
`i > 0` sees `available = buffer[i]` plus the previous stage's
`processed`; each roll lies in `[1, die_sides]`, and `processed`,
`buffer_after`, `starved`, `blocked` and the updated buffer follow the
source formulas. -/
theorem claim_C1 (g : DiceGame) (hne : g.buffers ≠ [])
    (hs : 1 ≤ g.die_sides) (ri : ℕ) :
    (g.play_round ri).1.stage_outcomes.length = g.buffers.length ∧
    (g.play_round ri).2.pos = g.pos + g.buffers.length ∧
    ∀ i, i < g.buffers.length →
      ((g.play_round ri).1.stage_outcomes.getD i d0).stage = i ∧
      ((g.play_round ri).1.stage_outcomes.getD i d0).roll =
        randint g.stream (g.pos + i) 1 g.die_sides ∧
      1 ≤ ((g.play_round ri).1.stage_outcomes.getD i d0).roll ∧
      ((g.play_round ri).1.stage_outcomes.getD i d0).roll ≤
        g.die_sides ∧
      ((g.play_round ri).1.stage_outcomes.getD i d0).available =
        g.buffers.getD i 0 +
          (if i = 0 then g.release_rate
           else ((g.play_round ri).1.stage_outcomes.getD (i - 1)
             d0).processed) ∧
      ((g.play_round ri).1.stage_outcomes.getD i d0).processed =
        min ((g.play_round ri).1.stage_outcomes.getD i d0).available
          ((g.play_round ri).1.stage_outcomes.getD i d0).roll ∧
      ((g.play_round ri).1.stage_outcomes.getD i d0).buffer_after =
        ((g.play_round ri).1.stage_outcomes.getD i d0).available -
          ((g.play_round ri).1.stage_outcomes.getD i d0).processed ∧
      ((g.play_round ri).1.stage_outcomes.getD i d0).starved =
        decide (((g.play_round ri).1.stage_outcomes.getD i
          d0).available <
          ((g.play_round ri).1.stage_outcomes.getD i d0).roll) ∧
      ((g.play_round ri).1.stage_outcomes.getD i d0).blocked =
        decide (0 < ((g.play_round ri).1.stage_outcomes.getD i
          d0).buffer_after) ∧
      (g.play_round ri).2.buffers.getD i 0 =
        ((g.play_round ri).1.stage_outcomes.getD i d0).buffer_after := by
  have houts : (g.play_round ri).1.stage_outcomes =
      (runStages g.stream g.die_sides (bumpHead g.release_rate g.buffers)
        0 g.pos 0).outs := rfl
  have hbufs : (g.play_round ri).2.buffers =
      (runStages g.stream g.die_sides (bumpHead g.release_rate g.buffers)
        0 g.pos 0).bufs := rfl
  have hpos : (g.play_round ri).2.pos =
      (runStages g.stream g.die_sides (bumpHead g.release_rate g.buffers)
        0 g.pos 0).pos := rfl
  have hblen := bumpHead_length g.release_rate g.buffers
  refine ⟨?_, ?_, ?_⟩
  · rw [houts, runStages_outs_length, hblen]
  · rw [hpos, runStages_pos, hblen]
  · intro i hi
    have hi' : i < (bumpHead g.release_rate g.buffers).length := by
      rw [hblen]; exact hi
    obtain ⟨h1, h2, h3, h4, h5, h6, h7, h8⟩ :=
      runStages_getD g.stream g.die_sides
        (bumpHead g.release_rate g.buffers) 0 g.pos 0 i hi'
    rw [houts, hbufs]
    have hbd := randint_bounds g.stream (g.pos + i) g.die_sides hs
    refine ⟨by rw [h1]; omega, h2, by rw [h2]; exact hbd.1,
      by rw [h2]; exact hbd.2, ?_, h4, h5, h6, h7, h8⟩
    rw [h3]
    cases i with
    | zero =>
      rw [if_pos rfl, if_pos rfl, bumpHead_getD_zero g.release_rate
        g.buffers hne]
      ring
    | succ j =>
      rw [if_neg (Nat.succ_ne_zero j), if_neg (Nat.succ_ne_zero j),
        bumpHead_getD_succ]

/-- C1 witness: the concrete game `wGame` (one stage, two-sided die). -/
theorem claim_C1_witness :
    wGame.buffers ≠ [] ∧ (1 : ℤ) ≤ wGame.die_sides ∧
    (wGame.play_round 1).1.stage_outcomes.length =
      wGame.buffers.length :=
  ⟨by simp [wGame], by norm_num [wGame],
    (claim_C1 wGame (by simp [wGame]) (by norm_num [wGame]) 1).1⟩

/-- C4: replication seeding.  With a base seed, replication `k`
(1-based) of the replication loop of `main` is a freshly constructed
game seeded `base_seed + (k - 1)`, so its result — the full
`SimulationSummary` with its `RoundOutcome` history — equals that of a
standalone single run constructed with seed `base_seed + (k - 1)` and
the same parameters; in particular replication 1 of a `K`-replication
run equals the standalone run with seed `base_seed`. -/
theorem claim_C4 (gen : ℤ → ℕ → ℤ)
    (stages die_sides release_rate initial_buffer base_seed rounds : ℤ)
    (K k : ℕ) (hk1 : 1 ≤ k) (hkK : k ≤ K) :
    (replicationSummaries gen stages die_sides release_rate
        initial_buffer base_seed K rounds)[k - 1]? =
      some (runSeeded gen stages die_sides release_rate initial_buffer
        (base_seed + ((k : ℤ) - 1)) rounds) ∧
    (replicationSummaries gen stages die_sides release_rate
        initial_buffer base_seed K rounds)[0]? =
      some (runSeeded gen stages die_sides release_rate initial_buffer
        base_seed rounds) := by
  constructor
  · have hlt : k - 1 < K := by omega
    have hc : ((k - 1 : ℕ) : ℤ) = (k : ℤ) - 1 := by omega
    simp only [replicationSummaries, List.getElem?_map,
      List.getElem?_range, hlt, if_pos, Option.map_some']
    rw [hc]
  · have hlt : 0 < K := by omega
    simp only [replicationSummaries, List.getElem?_map,
      List.getElem?_range, hlt, if_pos, Option.map_some', Nat.cast_zero,
      add_zero]

/-- C4 witness: replication 2 of a 3-replication run with base seed 100
is the standalone run seeded 101 (the spec's concrete scenario 4). -/
theorem claim_C4_witness :
    (1 : ℕ) ≤ 2 ∧ (2 : ℕ) ≤ 3 ∧
    (replicationSummaries (fun s k => s + k) 5 6 4 3 100 3 20)[2 - 1]? =
      some (runSeeded (fun s k => s + k) 5 6 4 3 (100 + ((2 : ℤ) - 1))
        20) :=
  ⟨by decide, by decide,
    (claim_C4 (fun s k => s + k) 5 6 4 3 100 20 3 2 (by decide)
      (by decide)).1⟩

/-- C5: `throughput_stdev` is the population standard deviation
(`pstdev`, dividing by `N`) of the per-round throughput series for
every successful run — the `rounds = 1` branch returning `0.0` agrees
with it, since the population stdev of a one-element series is 0 — and
is exactly 0 when `rounds = 1`; on the synthetic series `[2, 4, 4, 6]`
the mean is 4 and the population variance is 2, so a summary holding
that series' variance has stdev `sqrt 2`. -/
theorem claim_C5 (g : DiceGame) (rounds : ℤ) (s : SimulationSummary)
    (g' : DiceGame) (h : g.simulate rounds = .ok (s, g')) :
    s.throughput_stdev =
      Real.sqrt
        ((pvariance (s.rounds.map fun r => (r.throughput : ℚ)) : ℚ)) ∧
    (rounds = 1 → s.throughput_stdev = 0) ∧
    mean [2, 4, 4, 6] = 4 ∧ pvariance [2, 4, 4, 6] = 2 ∧
    (∀ s2 : SimulationSummary,
      s2.throughput_pvariance = pvariance [2, 4, 4, 6] →
        s2.throughput_stdev = Real.sqrt 2) := by
  obtain ⟨hr1, hrounds, -, -, hpv, -⟩ := simulate_ok_inv g rounds s g' h
  have hlen : s.rounds.length = rounds.toNat := by
    rw [hrounds, runRounds_length]
  have hstdev : s.throughput_stdev =
      Real.sqrt
        ((pvariance (s.rounds.map fun r => (r.throughput : ℚ)) : ℚ)) := by
    unfold SimulationSummary.throughput_stdev
    rw [hpv]
    split
    · rfl
    next hle =>
      have h1 : s.rounds.length = 1 := by omega
      obtain ⟨ro, hro⟩ := List.length_eq_one.mp h1
      rw [hro]
      simp [pvariance_singleton]
  refine ⟨hstdev, ?_, ?_, ?_, ?_⟩
  · intro hone
    rw [hstdev]
    have h1 : s.rounds.length = 1 := by omega
    obtain ⟨ro, hro⟩ := List.length_eq_one.mp h1
    rw [hro]
    simp [pvariance_singleton]
  · norm_num [mean]
  · norm_num [pvariance, mean]
  · intro s2 h2
    unfold SimulationSummary.throughput_stdev
    rw [h2]
    have : pvariance [2, 4, 4, 6] = 2 := by norm_num [pvariance, mean]
    rw [this]
    norm_num

/-- C5 witness: a concrete one-round run, whose stdev is 0. -/
theorem claim_C5_witness :
    wGame.simulate 1 = .ok (wSummary, wGame2) ∧
    ((1 : ℤ) = 1 → wSummary.throughput_stdev = 0) :=
  ⟨wGame_simulate,
    (claim_C5 wGame 1 wSummary wGame2 wGame_simulate).2.1⟩

/-- C7: the cycle-time computation of `_print_summary`.  For any
collection of summaries produced by `simulate` on well-formed games,
the overall mean throughput is nonnegative; when it is exactly 0 the
cycle time is the explicit undefined sentinel (`none`, the model of
`float("nan")`) rather than a raised division error — the computation
is a total function — and otherwise it equals overall mean WIP divided
by overall mean throughput (Little's Law). -/
theorem claim_C7 (summaries : List SimulationSummary)
    (h : ∀ s ∈ summaries, ∃ (g : DiceGame) (rounds : ℤ) (g' : DiceGame),
      g.WF ∧ g.simulate rounds = .ok (s, g')) :
    0 ≤ overall_avg_throughput summaries ∧
    (overall_avg_throughput summaries = 0 →
      cycle_time summaries = none) ∧
    (overall_avg_throughput summaries ≠ 0 →
      cycle_time summaries =
        some (overall_avg_wip summaries /
          overall_avg_throughput summaries)) := by
  have hnn : ∀ x ∈ summaries.map SimulationSummary.avg_throughput,
      (0 : ℚ) ≤ x := by
    intro x hx
    obtain ⟨s, hs, rfl⟩ := List.mem_map.mp hx
    obtain ⟨g, rounds, g', hwf, hok⟩ := h s hs
    obtain ⟨-, hrounds, -, havg, -⟩ := simulate_ok_inv g rounds s g' hok
    rw [havg]
    apply mean_nonneg
    intro y hy
    obtain ⟨ro, hro, rfl⟩ := List.mem_map.mp hy
    rw [hrounds] at hro
    have := runRounds_throughput_nonneg rounds.toNat g hwf 1 ro hro
    exact_mod_cast this
  have h0 : 0 ≤ overall_avg_throughput summaries := mean_nonneg _ hnn
  refine ⟨h0, ?_, ?_⟩
  · intro hz
    unfold cycle_time
    rw [if_neg]
    rw [hz]
    exact lt_irrefl 0
  · intro hnz
    have hpos : 0 < overall_avg_throughput summaries :=
      lt_of_le_of_ne h0 (Ne.symm hnz)
    unfold cycle_time
    rw [if_pos hpos]

/-- C7 witness: a single all-zero-throughput run; the cycle time is the
sentinel, not a crash. -/
theorem claim_C7_witness :
    overall_avg_throughput [wSummary] = 0 ∧
    cycle_time [wSummary] = none :=
  ⟨wSummary_overall_avg,
    (claim_C7 [wSummary]
      (by
        intro s hs
        rw [List.mem_singleton] at hs
        subst hs
        exact ⟨wGame, 1, wGame2, wGame_WF, wGame_simulate⟩)).2.1
      wSummary_overall_avg⟩

/-! ## The high-buffer regime (claim C8) -/

theorem bumpHead_lb (r : ℤ) (hr : 0 ≤ r) (m : ℤ) :
    ∀ bufs : List ℤ, (∀ b ∈ bufs, m ≤ b) → ∀ b ∈ bumpHead r bufs, m ≤ b
  | [], _, b, hb => by simp [bumpHead] at hb
  | x :: rest, h, b, hb => by
    rcases List.mem_cons.mp hb with h1 | h1
    · have := h x (List.mem_cons_self x rest)
      omega
    · exact h b (List.mem_cons_of_mem x h1)

/-- When every buffer is at least `sides + 1` and the incoming flow is
nonnegative, every stage processes its full roll, no stage starves,
every stage stays blocked, and every buffer stays at least
`m - sides`. -/
theorem runStages_flush (stream : ℕ → ℤ) (sides : ℤ) (hs : 1 ≤ sides)
    (m : ℤ) (hm : sides + 1 ≤ m) :
    ∀ (bufs : List ℤ) (idx pos : ℕ) (inc : ℤ), 0 ≤ inc →
      (∀ b ∈ bufs, m ≤ b) →
      (∀ o ∈ (runStages stream sides bufs idx pos inc).outs,
        o.processed = o.roll ∧ o.starved = false ∧ o.blocked = true) ∧
      (∀ b ∈ (runStages stream sides bufs idx pos inc).bufs, m - sides ≤ b)
  | [], _, _, inc, hinc, _ => by
    exact ⟨by simp [runStages], by simp [runStages]⟩
  | b :: rest, idx, pos, inc, hinc, hbufs => by
    have hb : m ≤ b := hbufs b (List.mem_cons_self b rest)
    have hroll := randint_bounds stream pos sides hs
    have hav : randint stream pos 1 sides ≤ b + inc := by omega
    have hmin : min (b + inc) (randint stream pos 1 sides) =
        randint stream pos 1 sides := min_eq_right hav
    have ih := runStages_flush stream sides hs m hm rest (idx + 1)
      (pos + 1) (min (b + inc) (randint stream pos 1 sides))
      (by omega) (fun x hx => hbufs x (List.mem_cons_of_mem b hx))
    rw [runStages_cons]
    constructor
    · intro o ho
      rcases List.mem_cons.mp ho with h1 | h1
      · subst h1
        dsimp only
        refine ⟨hmin, ?_, ?_⟩
        · exact decide_eq_false (by omega)
        · exact decide_eq_true (by omega)
      · exact ih.1 o h1
    · intro x hx
      rcases List.mem_cons.mp hx with h1 | h1
      · subst h1
        omega
      · exact ih.2 x h1

theorem play_round_buffers_length (g : DiceGame) (ri : ℕ) :
    (g.play_round ri).2.buffers.length = g.buffers.length := by
  show (runStages g.stream g.die_sides (bumpHead g.release_rate g.buffers)
    0 g.pos 0).bufs.length = _
  rw [runStages_bufs_length, bumpHead_length]

/-- One round in the high-buffer regime: full rolls processed, no
starvation, all stages blocked, buffers drop by at most `die_sides`,
and the first buffer grows by at least `release_rate - die_sides`. -/
theorem play_round_flush (g : DiceGame) (m : ℤ) (hs : 1 ≤ g.die_sides)
    (hm : g.die_sides + 1 ≤ m) (hr : 0 ≤ g.release_rate)
    (hne : g.buffers ≠ []) (hb : ∀ b ∈ g.buffers, m ≤ b) (ri : ℕ) :
    (∀ o ∈ (g.play_round ri).1.stage_outcomes,
      o.processed = o.roll ∧ o.starved = false ∧ o.blocked = true) ∧
    (∀ b ∈ (g.play_round ri).2.buffers, m - g.die_sides ≤ b) ∧
    g.buffers.getD 0 0 + (g.release_rate - g.die_sides) ≤
      (g.play_round ri).2.buffers.getD 0 0 := by
  have hbump := bumpHead_lb g.release_rate hr m g.buffers hb
  have hflush := runStages_flush g.stream g.die_sides hs m hm
    (bumpHead g.release_rate g.buffers) 0 g.pos 0 le_rfl hbump
  refine ⟨hflush.1, hflush.2, ?_⟩
  have hlen : 0 < (bumpHead g.release_rate g.buffers).length := by
    rw [bumpHead_length]
    cases hg : g.buffers with
    | nil => exact absurd hg hne
    | cons x l => simp
  obtain ⟨h1, h2, h3, h4, h5, h6, h7, h8⟩ :=
    runStages_getD g.stream g.die_sides
      (bumpHead g.release_rate g.buffers) 0 g.pos 0 0 hlen
  have hroll := randint_bounds g.stream (g.pos + 0) g.die_sides hs
  rw [← h2] at hroll
  have hb0 := bumpHead_getD_zero g.release_rate g.buffers hne
  rw [if_pos rfl, hb0] at h3
  have hgoal : (g.play_round ri).2.buffers.getD 0 0 =
      (runStages g.stream g.die_sides (bumpHead g.release_rate g.buffers)
        0 g.pos 0).bufs.getD 0 0 := rfl
  rw [hgoal, h8, h5, h3, h4, h3]
  have hminle := min_le_right
    (g.buffers.getD 0 0 + g.release_rate + 0)
    ((runStages g.stream g.die_sides (bumpHead g.release_rate g.buffers)
      0 g.pos 0).outs.getD 0 d0).roll
  omega

/-- The concrete high-buffer configuration over any roll stream: every
round, every stage processes exactly its roll, never starves, and is
always blocked; buffers drop by at most 6 per round and the first
buffer grows by at least 94 per round. -/
theorem runRounds_flush : ∀ (n : ℕ) (g : DiceGame) (i : ℕ) (m : ℤ),
    g.die_sides = 6 → g.release_rate = 100 → g.buffers ≠ [] →
    6 * (n : ℤ) + 1 ≤ m → (∀ b ∈ g.buffers, m ≤ b) →
    (∀ ro ∈ (runRounds g n i).1, ∀ o ∈ ro.stage_outcomes,
      o.processed = o.roll ∧ o.starved = false ∧ o.blocked = true) ∧
    (∀ b ∈ (runRounds g n i).2.buffers, m - 6 * (n : ℤ) ≤ b) ∧
    g.buffers.getD 0 0 + 94 * (n : ℤ) ≤
      (runRounds g n i).2.buffers.getD 0 0
  | 0, g, i, m, h6, h100, hne, hmn, hb => by
    refine ⟨by simp [runRounds], ?_, by simp [runRounds]⟩
    intro b hb'
    have := hb b hb'
    simp only [Nat.cast_zero] at *
    omega
  | n + 1, g, i, m, h6, h100, hne, hmn, hb => by
    have hcast : ((n + 1 : ℕ) : ℤ) = (n : ℤ) + 1 := by push_cast; ring
    rw [hcast] at hmn
    have hflush := play_round_flush g m (by rw [h6]; norm_num)
      (by rw [h6]; omega) (by rw [h100]; norm_num) hne hb i
    have hg1sides : (g.play_round i).2.die_sides = 6 := h6
    have hg1rel : (g.play_round i).2.release_rate = 100 := h100
    have hg1ne : (g.play_round i).2.buffers ≠ [] := by
      intro hc
      have := play_round_buffers_length g i
      rw [hc] at this
      exact hne (List.length_eq_zero.mp this.symm)
    have hg1b : ∀ b ∈ (g.play_round i).2.buffers, m - 6 ≤ b := by
      intro b hb'
      have := hflush.2.1 b hb'
      rw [h6] at this
      exact this
    have ih := runRounds_flush n (g.play_round i).2 (i + 1) (m - 6)
      hg1sides hg1rel hg1ne (by omega) hg1b
    simp only [runRounds]
    refine ⟨?_, ?_, ?_⟩
    · intro ro hro
      rcases List.mem_cons.mp hro with h1 | h1
      · subst h1
        exact hflush.1
      · exact ih.1 ro h1
    · intro b hb'
      have := ih.2.1 b hb'
      rw [hcast]
      omega
    · have hhead := hflush.2.2
      rw [h6, h100] at hhead
      have := ih.2.2
      rw [hcast]
      omega

/-- The stream realising per-round rolls (1, 6, 1) in the three-stage
counterexample configuration. -/
def cStream : ℕ → ℤ := fun k => if k % 3 = 1 then 5 else 0

/-- The game `DiceGame(stages=3, die_sides=6, release_rate=100,
initial_buffer=1000)` with stream `cStream`. -/
def cGame : DiceGame := ⟨3, 6, 100, [1000, 1000, 1000], cStream, 0⟩

/-- C8 counterexample: in the configuration `stages=3, die_sides=6,
release_rate=100, initial_buffer=1000, rounds=5`, the roll sequence
(1, 6, 1) every round — realisable since rolls are uniform over
`[1, 6]` — leaves stage 1 (0-based) with buffer 975 after the 5-round
run, strictly below its initial 1000: not every stage's buffer grows,
refuting the claim's final conjunct. -/
theorem claim_C8_counterexample :
    mkDiceGame 3 6 100 1000 cStream = .ok cGame ∧
    cGame.buffers.getD 1 0 = 1000 ∧
    (runRounds cGame 5 1).2.buffers.getD 1 0 = 975 ∧
    ¬(cGame.buffers.getD 1 0 < (runRounds cGame 5 1).2.buffers.getD 1 0)
    := ⟨rfl, rfl, by decide, by decide⟩

/-- C8 (amended): for the configuration `stages=3, die_sides=6,
release_rate=100, initial_buffer=1000, rounds=5` and every possible
sequence of rolls in `[1, 6]` (every raw stream), every stage outcome
of every round of the run has `processed = roll`, `starved = False`
and `blocked = True`, and the FIRST stage's buffer is strictly larger
after the run than before it (downstream buffers may shrink, as the
counterexample shows; the history of a `rounds = 5` run is exactly
`(runRounds g 5 1).1`, per `simulate_ok_inv`). -/
theorem claim_C8_amended (stream : ℕ → ℤ) (g : DiceGame)
    (h : mkDiceGame 3 6 100 1000 stream = .ok g) :
    (∀ ro ∈ (runRounds g 5 1).1, ∀ o ∈ ro.stage_outcomes,
      o.processed = o.roll ∧ o.starved = false ∧ o.blocked = true) ∧
    g.buffers.getD 0 0 < (runRounds g 5 1).2.buffers.getD 0 0 := by
  obtain ⟨hwf, -, hsides, hrel, hbuf, -⟩ :=
    mkDiceGame_ok_WF 3 6 100 1000 stream g h
  have hb : ∀ b ∈ g.buffers, (1000 : ℤ) ≤ b := by
    intro b hb'
    rw [hbuf] at hb'
    have := List.eq_of_mem_replicate hb'
    omega
  have hfl := runRounds_flush 5 g 1 1000 hsides hrel hwf.1
    (by norm_num) hb
  refine ⟨hfl.1, ?_⟩
  have hhead := hfl.2.2
  have h0 : g.buffers.getD 0 0 = 1000 := by
    rw [hbuf]
    rfl
  rw [h0] at hhead ⊢
  omega

/-- C8 witness (for the amended claim): the all-ones roll stream. -/
def g8w : DiceGame := ⟨3, 6, 100, [1000, 1000, 1000], wStream, 0⟩

/-- C8 amended-claim witness at the concrete stream `wStream`. -/
theorem claim_C8_amended_witness :
    mkDiceGame 3 6 100 1000 wStream = .ok g8w ∧
    g8w.buffers.getD 0 0 < (runRounds g8w 5 1).2.buffers.getD 0 0 :=
  ⟨rfl, (claim_C8_amended wStream g8w rfl).2⟩

end DiceSim
